import Mathlib

/-!
Verification of the morphic.py interaction-engine port against its
specification.  The Python source keeps all numeric state in IEEE floats
and machine integers; we embed numbers as `ℚ` (exact rationals) and clock
readings in milliseconds as `ℤ`, which is faithful for every computation
the claims touch (additions, subtractions, multiplications, divisions and
comparisons on values the program derives from its inputs).  Python
exceptions (`ZeroDivisionError`, `AttributeError`, `NameError`, explicit
`raise`) are embedded as `Option`/`Except` failure values.
-/

/-- Python division `a / b`: raises `ZeroDivisionError` when the divisor is
zero (embedded as `none`), otherwise produces the exact quotient. -/
def pyDiv (a b : ℚ) : Option ℚ :=
  if b = 0 then none else some (a / b)

/-- Python floor division `a // b`: `ZeroDivisionError` on a zero divisor,
otherwise the floor of the quotient (Python keeps this value a float when
either operand is one; the numeric value is the floor either way). -/
def pyFloorDiv (a b : ℚ) : Option ℚ :=
  if b = 0 then none else some ((⌊a / b⌋ : ℤ) : ℚ)

/-- Python modulo `a % b`: `ZeroDivisionError` on a zero divisor, otherwise
`a - b * ⌊a / b⌋` (Python's sign convention for both ints and floats). -/
def pyMod (a b : ℚ) : Option ℚ :=
  if b = 0 then none else some (a - b * ((⌊a / b⌋ : ℤ) : ℚ))

/-- Python `int(·)` on a real number: truncation toward zero. -/
def pyInt (q : ℚ) : ℤ :=
  if q < 0 then -⌊-q⌋ else ⌊q⌋

/-- Python `round(·)` with the default `ndigits = 0`: banker's rounding,
i.e. nearest integer, ties resolved to the even neighbour. -/
def pyRound (q : ℚ) : ℤ :=
  if q - ⌊q⌋ = 1/2 then (if 2 ∣ ⌊q⌋ then ⌊q⌋ else ⌊q⌋ + 1) else ⌊q + 1/2⌋

/-!
## Easing functions (src/morphic.py lines 1391-1415)

The easing lambdas apply `math.sin` and `math.cos`, transcendental
functions with no exact rational embedding.  They are abstracted as the
fields of a `TrigOracle`; every claim about the easings (selection,
totality, division by zero) is independent of the values these fields
take, and the theorems below quantify over the oracle.  All divisions
appearing in the lambdas go through `pyDiv`, so a zero divisor surfaces
as `none` exactly where Python raises `ZeroDivisionError`.
-/

/-- Abstraction of the transcendental functions used by the easing
lambdas: `sin q` stands for `math.sin(q)` at the rational argument `q`,
while `sinDeg d` and `cosDeg d` stand for `math.sin(radians(d))` and
`math.cos(radians(d))` (the source always wraps those two in the
degree-to-radian conversion `radians`, whose result is irrational). -/
structure TrigOracle where
  sin : ℚ → ℚ
  sinDeg : ℚ → ℚ
  cosDeg : ℚ → ℚ

/-- Easing `"linear"`: `lambda t: t`. -/
def easingLinear (t : ℚ) : Option ℚ := some t

/-- Easing `"sinusoidal"`: `lambda t: 1-math.cos(radians(t*90))`. -/
def easingSinusoidal (trig : TrigOracle) (t : ℚ) : Option ℚ :=
  some (1 - trig.cosDeg (t * 90))

/-- Easing `"quadratic"`: `lambda t: (2*t**2 if t<1/2 else 4*t-2*t**2-1)`. -/
def easingQuadratic (t : ℚ) : Option ℚ :=
  some (if t < 1/2 then 2 * t ^ 2 else 4 * t - 2 * t ^ 2 - 1)

/-- Easing `"cubic"`: `lambda t: (4*t**3 if t<1/2 else (t-1)*4*t**2-8*t-3)`. -/
def easingCubic (t : ℚ) : Option ℚ :=
  some (if t < 1/2 then 4 * t ^ 3 else (t - 1) * 4 * t ^ 2 - 8 * t - 3)

/-- Easing `"elastic"`:
`lambda t: ((math.sin(50*t))/100+(math.sin(50*t))/(100*t) if t<1/2
else (math.sin(50*t))/50-(math.sin(50*t))/(100*t)+1)`. -/
def easingElastic (trig : TrigOracle) (t : ℚ) : Option ℚ :=
  if t < 1/2 then do
    let a ← pyDiv (trig.sin (50 * t)) 100
    let b ← pyDiv (trig.sin (50 * t)) (100 * t)
    pure (a + b)
  else do
    let a ← pyDiv (trig.sin (50 * t)) 50
    let b ← pyDiv (trig.sin (50 * t)) (100 * t)
    pure (a - b + 1)

/-- Easing `"sine_in"`: `lambda t: 1-math.sin(radians(90+(t*90)))`. -/
def easingSineIn (trig : TrigOracle) (t : ℚ) : Option ℚ :=
  some (1 - trig.sinDeg (90 + t * 90))

/-- Easing `"quad_in"`: `lambda t: t**2`. -/
def easingQuadIn (t : ℚ) : Option ℚ := some (t ^ 2)

/-- Easing `"cubic_in"`: `lambda t: t**3`. -/
def easingCubicIn (t : ℚ) : Option ℚ := some (t ^ 3)

/-- Easing `"elastic_in"`: `lambda t: (1/25-1/(25*t))*math.sin(25*t)+1`. -/
def easingElasticIn (trig : TrigOracle) (t : ℚ) : Option ℚ := do
  let a ← pyDiv 1 25
  let b ← pyDiv 1 (25 * t)
  pure ((a - b) * trig.sin (25 * t) + 1)

/-- Easing `"sine_out"`: `lambda t: math.sin(radians(t*90))`. -/
def easingSineOut (trig : TrigOracle) (t : ℚ) : Option ℚ :=
  some (trig.sinDeg (t * 90))

/-- Easing `"quad_out"`: `lambda t: t*(2-t)`. -/
def easingQuadOut (t : ℚ) : Option ℚ := some (t * (2 - t))

/-- Easing `"elastic_out"`: `lambda t: t/(25*(t-1))*math.sin(25*t)`. -/
def easingElasticOut (trig : TrigOracle) (t : ℚ) : Option ℚ := do
  let a ← pyDiv t (25 * (t - 1))
  pure (a * trig.sin (25 * t))

/-- The dictionary `self.easings` built in `Animation.__init__`
(lines 1391-1415), in source order. -/
def easingsTable (trig : TrigOracle) : List (String × (ℚ → Option ℚ)) :=
  [(("linear"), easingLinear),
   (("sinusoidal"), easingSinusoidal trig),
   (("quadratic"), easingQuadratic),
   (("cubic"), easingCubic),
   (("elastic"), easingElastic trig),
   (("sine_in"), easingSineIn trig),
   (("quad_in"), easingQuadIn),
   (("cubic_in"), easingCubicIn),
   (("elastic_in"), easingElasticIn trig),
   (("sine_out"), easingSineOut trig),
   (("quad_out"), easingQuadOut),
   (("elastic_out"), easingElasticOut trig)]

/-- The `easing` argument of `Animation.__init__`: a string naming an
easing, a function supplied directly, or the default `None`. -/
inductive EasingArg where
  | byName (s : String)
  | byFn (f : ℚ → Option ℚ)
  | noArg

/-- The easing-selection logic of `Animation.__init__` (lines 1420-1429).
When the argument is a string found among the dictionary keys, the
dictionary entry is taken.  In the two fallback branches the source
evaluates `self.easings.sinusoidal` - attribute access on a Python
`dict`, which raises `AttributeError` (`'dict' object has no attribute
'sinusoidal'`), embedded as `none`. -/
def Animation.selectEasing (trig : TrigOracle) : EasingArg → Option (ℚ → Option ℚ)
  | .byName s =>
      match (easingsTable trig).lookup s with
      | some f => some f
      | none => none
  | .byFn f => some f
  | .noArg => none

/-- The state of an `Animation` (lines 1384-1455).  The Python object
holds `setter`/`getter` closures over one mutable numeric slot of the
animated target; that slot is embedded as the field `value` (the getter
reads it, the setter writes it).  `hasOnComplete` records whether an
`onComplete` callback was supplied and `completions` counts how many
times it has been invoked, observing the callback without modelling its
body.  The easing function is carried separately by the operations
because Lean records of functions have no decidable equality. -/
structure Animation where
  delta : ℚ
  duration : ℚ
  endTime : ℤ
  destination : ℚ
  isActive : Bool
  value : ℚ
  hasOnComplete : Bool
  completions : ℕ
deriving DecidableEq, Repr

/-- `Animation.start` (lines 1436-1442), at clock reading `now`
(milliseconds, `time.time_ns()//1000000`).  Note the source sets
`self.endTime = time.time_ns()//1000000` - the current instant, with the
duration NOT added. -/
def Animation.start (now : ℤ) (a : Animation) : Animation :=
  { a with endTime := now
           destination := a.value + a.delta
           isActive := true }

/-- `Animation.__init__` (lines 1388-1434): stores the arguments, resolves
the easing (propagating the `AttributeError` of the fallback branches as
`none`), initialises `endTime`/`destination`/`isActive` and immediately
calls `self.start()`.  The `None` placeholders the source writes into
`endTime` and `destination` are overwritten by `start` before `__init__`
returns, so the embedding materialises them as zeros. -/
def Animation.init (trig : TrigOracle) (easing : EasingArg)
    (delta duration : ℚ) (hasOnComplete : Bool) (value : ℚ) (now : ℤ) :
    Option ((ℚ → Option ℚ) × Animation) :=
  match Animation.selectEasing trig easing with
  | none => none
  | some f =>
      some (f, Animation.start now
        { delta := delta
          duration := duration
          endTime := 0
          destination := 0
          isActive := false
          value := value
          hasOnComplete := hasOnComplete
          completions := 0 })

/-- `Animation.step` (lines 1444-1455) with easing function `easing` at
clock reading `now`: no-op when inactive; when `now > self.endTime` the
setter receives the exact destination, the animation deactivates and the
completion callback (when present) runs; otherwise the setter receives
`destination - delta * easing((endTime-now)/duration)`.  A zero
`duration` or an easing raising inside (`pyDiv`) propagates as `none`. -/
def Animation.step (easing : ℚ → Option ℚ) (now : ℤ) (a : Animation) :
    Option Animation :=
  if a.isActive = false then some a
  else if a.endTime < now then
    some { a with value := a.destination
                  isActive := false
                  completions :=
                    a.completions + (if a.hasOnComplete then 1 else 0) }
  else
    match pyDiv (((a.endTime : ℚ)) - ((now : ℤ) : ℚ)) a.duration with
    | none => none
    | some fr =>
        match easing fr with
        | none => none
        | some e => some { a with value := a.destination - a.delta * e }

/-!
## Color (src/morphic.py lines 1459-1692)

Only the hsva conversion is claim-relevant.
-/

/-- The condition `max == rr` on line 1538 compares the Python BUILTIN
FUNCTION `max` (the local computed maximum is spelled `max_`) with the
float `rr`; a function never equals a float, so the comparison is `False`
for every `rr`. -/
def pyMaxFnEqNum (_ : ℚ) : Bool := false

/-- `Color.rgba_hsva` (lines 1523-1548).  Every `/` in the body has a
divisor that is provably nonzero on its branch (`255`; `max_` under the
`max_ == 0` guard; `d` only when `max_ != min_`; the constant `6`), so
plain rational division is exact here; the only failure the method can
produce is its explicit `raise Exception("This error should never be
raised. ...")`, embedded as `none`. -/
def Color.rgba_hsva (r g b a : ℚ) : Option (ℚ × ℚ × ℚ × ℚ) :=
  let rr := r / 255
  let gg := g / 255
  let bb := b / 255
  let max_ := max rr (max gg bb)
  let min_ := min rr (min gg bb)
  let v := max_
  let d := max_ - min_
  let s := if max_ = 0 then 0 else d / max_
  if max_ = min_ then some (0, s, v, a)
  else if pyMaxFnEqNum rr then
    some (((gg - bb) / d + (if gg < bb then 6 else 0)) / 6, s, v, a)
  else if max_ = gg then some (((bb - rr) / d + 2) / 6, s, v, a)
  else if max_ = bb then some (((rr - gg) / d + 4) / 6, s, v, a)
  else none

/-!
## Point (src/morphic.py lines 1695-1955)

The constructor truncates both coordinates with `int(float(.))`; `float`
is the identity on the (already numeric) values our embedding ranges
over, and `int` is truncation toward zero (`pyInt`).  Every
Point-producing method of the class calls the constructor on the numbers
it computes, so its results re-truncate.
-/

/-- A morphic `Point` as stored: two numeric slots `x`, `y`. -/
structure Point where
  x : ℚ
  y : ℚ
deriving DecidableEq, Repr

/-- `Point.__init__` (lines 1699-1701): `self.x = int(float(x))`,
`self.y = int(float(y))`. -/
def Point.init (x y : ℚ) : Point :=
  ⟨((pyInt x : ℤ) : ℚ), ((pyInt y : ℤ) : ℚ)⟩

/-- `Point.copy` (lines 1714-1715). -/
def Point.copy (p : Point) : Point := Point.init p.x p.y

/-- `Point.__neg__` (lines 1782-1786). -/
def Point.neg (p : Point) : Point := Point.init (-p.x) (-p.y)

/-- `Point.__abs__` (lines 1776-1780). -/
def Point.absP (p : Point) : Point := Point.init |p.x| |p.y|

/-- `Point.__round__` with the default `ndigits=0` (lines 1770-1774). -/
def Point.roundP (p : Point) : Point :=
  Point.init ((pyRound p.x : ℤ) : ℚ) ((pyRound p.y : ℤ) : ℚ)

/-- `Point.__floor__` (lines 1800-1804). -/
def Point.floorP (p : Point) : Point :=
  Point.init ((⌊p.x⌋ : ℤ) : ℚ) ((⌊p.y⌋ : ℤ) : ℚ)

/-- `Point.__ceil__` (lines 1806-1810). -/
def Point.ceilP (p : Point) : Point :=
  Point.init ((⌈p.x⌉ : ℤ) : ℚ) ((⌈p.y⌉ : ℤ) : ℚ)

/-- `Point.max` when the argument is a Point (lines 1753-1758); with a
non-Point argument the method returns `self` unchanged, producing no new
Point. -/
def Point.maxP (p q : Point) : Point :=
  Point.init (max p.x q.x) (max p.y q.y)

/-- `Point.min` when the argument is a Point (lines 1761-1767). -/
def Point.minP (p q : Point) : Point :=
  Point.init (min p.x q.x) (min p.y q.y)

/-- `Point.__add__` / `__radd__` with a Point argument (lines 1813-1815,
1845-1847). -/
def Point.addP (p q : Point) : Point := Point.init (p.x + q.x) (p.y + q.y)

/-- `Point.__add__` / `__radd__` with a plain-number argument
(lines 1816, 1848). -/
def Point.addS (p : Point) (s : ℚ) : Point := Point.init (p.x + s) (p.y + s)

/-- `Point.__sub__` with a Point argument (lines 1818-1820). -/
def Point.subP (p q : Point) : Point := Point.init (p.x - q.x) (p.y - q.y)

/-- `Point.__sub__` with a plain-number argument (line 1821). -/
def Point.subS (p : Point) (s : ℚ) : Point := Point.init (p.x - s) (p.y - s)

/-- `Point.__rsub__` with a plain-number argument (line 1853). -/
def Point.rsubS (p : Point) (s : ℚ) : Point := Point.init (s - p.x) (s - p.y)

/-- `Point.__mul__` / `__rmul__` with a Point argument (lines 1823-1825,
1855-1857). -/
def Point.mulP (p q : Point) : Point := Point.init (p.x * q.x) (p.y * q.y)

/-- `Point.__mul__` / `__rmul__` with a plain-number argument (lines 1826,
1858); `scale` (line 1939-1940) delegates here. -/
def Point.mulS (p : Point) (s : ℚ) : Point := Point.init (p.x * s) (p.y * s)

/-- `Point.__truediv__` with a Point argument (lines 1828-1830): each
coordinate divides via Python `/`, so a zero coordinate of the divisor
raises. -/
def Point.divP (p q : Point) : Option Point :=
  match pyDiv p.x q.x, pyDiv p.y q.y with
  | some a, some b => some (Point.init a b)
  | _, _ => none

/-- `Point.__truediv__` with a plain-number argument (line 1831). -/
def Point.divS (p : Point) (s : ℚ) : Option Point :=
  match pyDiv p.x s, pyDiv p.y s with
  | some a, some b => some (Point.init a b)
  | _, _ => none

/-- `Point.__floordiv__` with a Point argument (lines 1835-1837). -/
def Point.floordivP (p q : Point) : Option Point :=
  match pyFloorDiv p.x q.x, pyFloorDiv p.y q.y with
  | some a, some b => some (Point.init a b)
  | _, _ => none

/-- `Point.__mod__` with a Point argument (lines 1840-1842). -/
def Point.modP (p q : Point) : Option Point :=
  match pyMod p.x q.x, pyMod p.y q.y with
  | some a, some b => some (Point.init a b)
  | _, _ => none

/-- `Point.mirror` (lines 1788-1798): line 1793 evaluates
`-self.asTuple`, the unary minus of a TUPLE, which raises `TypeError` on
every call before any Point can be built; the method therefore never
produces a value. -/
def Point.mirror (_p : Point) (_axis : Option Point) : Option Point := none

/-- The coordinates of a point are (numerically) integers. -/
def Point.isIntCoords (p : Point) : Prop := p.x.den = 1 ∧ p.y.den = 1

/-- The Points reachable through the class API: those built by the
constructor and anything the Point-producing methods return on Points
already reached.  (`Point.min`/`Point.max` on a non-Point argument and
`translate`/`scale`, which delegate to `+`/`*`, add no further cases;
`mirror` and the methods derived from it never return.) -/
inductive Point.Reachable : Point → Prop where
  | init (x y : ℚ) : Point.Reachable (Point.init x y)
  | copy {p} : Point.Reachable p → Point.Reachable (Point.copy p)
  | neg {p} : Point.Reachable p → Point.Reachable (Point.neg p)
  | absP {p} : Point.Reachable p → Point.Reachable (Point.absP p)
  | roundP {p} : Point.Reachable p → Point.Reachable (Point.roundP p)
  | floorP {p} : Point.Reachable p → Point.Reachable (Point.floorP p)
  | ceilP {p} : Point.Reachable p → Point.Reachable (Point.ceilP p)
  | maxP {p q} : Point.Reachable p → Point.Reachable q →
      Point.Reachable (Point.maxP p q)
  | minP {p q} : Point.Reachable p → Point.Reachable q →
      Point.Reachable (Point.minP p q)
  | addP {p q} : Point.Reachable p → Point.Reachable q →
      Point.Reachable (Point.addP p q)
  | addS {p} (s : ℚ) : Point.Reachable p → Point.Reachable (Point.addS p s)
  | subP {p q} : Point.Reachable p → Point.Reachable q →
      Point.Reachable (Point.subP p q)
  | subS {p} (s : ℚ) : Point.Reachable p → Point.Reachable (Point.subS p s)
  | rsubS {p} (s : ℚ) : Point.Reachable p → Point.Reachable (Point.rsubS p s)
  | mulP {p q} : Point.Reachable p → Point.Reachable q →
      Point.Reachable (Point.mulP p q)
  | mulS {p} (s : ℚ) : Point.Reachable p → Point.Reachable (Point.mulS p s)
  | divP {p q r} : Point.Reachable p → Point.Reachable q →
      Point.divP p q = some r → Point.Reachable r
  | divS {p r} (s : ℚ) : Point.Reachable p →
      Point.divS p s = some r → Point.Reachable r
  | floordivP {p q r} : Point.Reachable p → Point.Reachable q →
      Point.floordivP p q = some r → Point.Reachable r
  | modP {p q r} : Point.Reachable p → Point.Reachable q →
      Point.modP p q = some r → Point.Reachable r
  | mirror {p a r} : Point.Reachable p →
      Point.mirror p a = some r → Point.Reachable r

/-!
## Settings profiles (src/morphic.py lines 1218-1258)

The two profile dicts consist of literal values except for two entries:
`standardSettings["minimumFontHeight"]` calls `getMinimumFontHeight()`
(line 1341, returns `1`), and `touchScreenSettings["minimumFontHeight"]`
evaluates `standardSettings.minimumFontHeight` - attribute access on a
Python dict, which raises `AttributeError`.
-/

/-- A settled settings value: number, string or boolean. -/
inductive SettingValue where
  | num (q : ℚ)
  | str (s : String)
  | bool (b : Bool)
deriving DecidableEq, Repr

/-- A value expression appearing in one of the profile dict literals. -/
inductive SettingExpr where
  | lit (v : SettingValue)
  | callFn (f : String)
  | dictAttr (d a : String)
deriving DecidableEq, Repr

/-- Evaluation of a settings value expression.  `callFn` covers the one
call the profiles make, `getMinimumFontHeight()` (line 1341-1342, returns
`1`).  `dictAttr` reads an attribute of a dict object: Python dicts
expose their entries by subscript, not as attributes, so this raises
`AttributeError` - embedded as `none`. -/
def evalSettingExpr : SettingExpr → Option SettingValue
  | .lit v => some v
  | .callFn f =>
      if f = ("getMinimumFontHeight") then some (.num 1) else none
  | .dictAttr _ _ => none

/-- Evaluation of a whole profile literal: every entry in order; the
first raising entry aborts the dict display. -/
def evalSettings : List (String × SettingExpr) →
    Option (List (String × SettingValue))
  | [] => some []
  | (k, e) :: rest =>
      match evalSettingExpr e, evalSettings rest with
      | some v, some r => some ((k, v) :: r)
      | _, _ => none

/-- The `standardSettings` dict literal (lines 1218-1236), entries in
source order. -/
def standardSettingsSrc : List (String × SettingExpr) :=
  [(("minimumFontHeight"), .callFn ("getMinimumFontHeight")),
   (("globalFontFamily"), .lit (.str (""))),
   (("menuFontName"), .lit (.str ("sans-serif"))),
   (("menuFontSize"), .lit (.num 12)),
   (("bubbleHelpFontSize"), .lit (.num 10)),
   (("prompterFontName"), .lit (.str ("sans-serif"))),
   (("prompterFontSize"), .lit (.num 12)),
   (("prompterSliderSize"), .lit (.num 10)),
   (("handleSize"), .lit (.num 15)),
   (("scrollBarSize"), .lit (.num 9)),
   (("mouseScrollAmount"), .lit (.num 40)),
   (("useSliderForInput"), .lit (.bool false)),
   (("isTouchDevice"), .lit (.bool false)),
   (("rasterizeSVGs"), .lit (.bool false)),
   (("isFlat"), .lit (.bool false)),
   (("grabThreshold"), .lit (.num 5)),
   (("showHoles"), .lit (.bool false))]

/-- The `touchScreenSettings` dict literal (lines 1238-1256), entries in
source order; the first entry reads `standardSettings.minimumFontHeight`
as a dict ATTRIBUTE. -/
def touchScreenSettingsSrc : List (String × SettingExpr) :=
  [(("minimumFontHeight"),
      .dictAttr ("standardSettings") ("minimumFontHeight")),
   (("globalFontFamily"), .lit (.str (""))),
   (("menuFontName"), .lit (.str ("sans-serif"))),
   (("menuFontSize"), .lit (.num 24)),
   (("bubbleHelpFontSize"), .lit (.num 18)),
   (("prompterFontName"), .lit (.str ("sans-serif"))),
   (("prompterFontSize"), .lit (.num 24)),
   (("prompterSliderSize"), .lit (.num 20)),
   (("handleSize"), .lit (.num 26)),
   (("scrollBarSize"), .lit (.num 24)),
   (("mouseScrollAmount"), .lit (.num 40)),
   (("useSliderForInput"), .lit (.bool false)),
   (("isTouchDevice"), .lit (.bool true)),
   (("rasterizeSVGs"), .lit (.bool false)),
   (("isFlat"), .lit (.bool false)),
   (("grabThreshold"), .lit (.num 5)),
   (("showHoles"), .lit (.bool false))]

/-- Line 1258: `MorphicPreferences = standardSettings` - the active
configuration is the standard profile record, aliased wholesale. -/
def MorphicPreferences : List (String × SettingExpr) := standardSettingsSrc

/-!
## Module top-level evaluation order (src/morphic.py lines 1198-1955)

Python executes a module's top-level statements strictly in source order;
a statement reading a not-yet-bound global name raises `NameError`
("name ... is not defined") and aborts the import.  The embedding records,
for each top-level statement, the name it binds and the global names its
evaluation reads at that moment (a `def` or `class` statement binds its
name without evaluating body references; the class bodies of this module
execute only `def`s, literal default arguments, builtin decorators and
class-local aliases when created).
-/

/-- One top-level statement of the module. -/
inductive PyStmt where
  | imp (name : String)
  | defFun (name : String)
  | defClass (name : String)
  | assign (name : String) (uses : List String)
deriving DecidableEq, Repr

/-- The name a top-level statement binds. -/
def PyStmt.binds : PyStmt → String
  | .imp n => n
  | .defFun n => n
  | .defClass n => n
  | .assign n _ => n

/-- The global names a top-level statement reads when executed. -/
def PyStmt.reads : PyStmt → List String
  | .assign _ us => us
  | _ => []

/-- Sequential execution of top-level statements: the first statement
reading an unbound name stops the module with `NameError`; the result
reports (failing statement's target, missing name) or the final
environment. -/
def runTopLevel : List String → List PyStmt →
    Except (String × String) (List String)
  | env, [] => .ok env
  | env, s :: rest =>
      match s.reads.find? (fun u => !env.contains u) with
      | some u => .error (s.binds, u)
      | none => runTopLevel (s.binds :: env) rest

/-- The module's top-level statements in source order (lines 1198-1955):
the four imports, the scalar globals, the four Point/Color constants, the
two settings dicts and their alias, the helper `def`s, then the three
classes. -/
def moduleTopLevel : List PyStmt :=
  [.imp ("math"), .imp ("re"), .imp ("tkinter"), .imp ("time"),
   .assign ("morphicVersion") [],
   .assign ("modules") [],
   .assign ("useBlurredShadows") [],
   .assign ("ZERO") [("Point")],
   .assign ("BLACK") [("Color")],
   .assign ("WHITE") [("Color")],
   .assign ("CLEAR") [("Color")],
   .assign ("standardSettings") [("getMinimumFontHeight")],
   .assign ("touchScreenSettings") [("standardSettings")],
   .assign ("MorphicPreferences") [("standardSettings")],
   .defFun ("nop"), .defFun ("localize"), .defFun ("isNil"),
   .defFun ("contains"), .defFun ("detect"), .defFun ("sizeOf"),
   .defFun ("isString"), .defFun ("isObject"), .defFun ("radians"),
   .defFun ("degrees"), .defFun ("fontHeight"), .defFun ("isWordChar"),
   .defFun ("isURLChar"), .defFun ("isURL"), .defFun ("newCanvas"),
   .defFun ("getMinimumFontHeight"), .defFun ("getDocumentPositionOf"),
   .defFun ("copy"),
   .defClass ("Animation"), .defClass ("Color"), .defClass ("Point")]

/-- Index of the first statement binding a given name, used to state
"referenced before defined" facts about the source order. -/
def bindIndex (n : String) : Option ℕ :=
  moduleTopLevel.findIdx? (fun s => s.binds = n)

/-!
## Morph tree (modelled from the spec)

The repository's Node/Morph classes are not part of src/morphic.py (the
port stops after the geometry classes), so the tree operations are
modelled from the spec.  Spec 3 "Data Model": a Node holds an ordered
sequence of owned children (rightmost = topmost) and a non-owning parent
back-reference; invariant: a node appears in at most one parent's child
sequence at a time, the tree is acyclic.  Spec 4.1: `addChild(parent,
child, atBack)` detaches child from any existing parent first, appends to
parent's child sequence (front when atBack, topmost end otherwise), and
fails silently when child is an ancestor of parent (would create a
cycle), checked explicitly before attachment; `remove(node)` detaches
node from its parent's child sequence.  Nodes are identifiers (ℕ); a tree
state maps each node to its children sequence; the parent back-reference
is recovered by lookup, which is single-valued under the invariant.
-/

/-- Modelled from the spec: the state of the morph forest, pairing every
node with its ordered children sequence. -/
abbrev MTree := List (ℕ × List ℕ)

/-- The children sequence of a node (empty when the node is unknown). -/
def childrenOf (w : MTree) (a : ℕ) : List ℕ :=
  match w.find? (fun e => e.1 = a) with
  | some e => e.2
  | none => []

/-- The parent back-reference of a node: the owner of the (under the
invariant unique) child sequence containing it. -/
def parentOf (w : MTree) (n : ℕ) : Option ℕ :=
  (w.find? (fun e => n ∈ e.2)).map Prod.fst

/-- Modelled from the spec: detaching a node from any child sequence it
occurs in (the common part of `remove` and of `addChild`'s re-parenting). -/
def detachChild (c : ℕ) (w : MTree) : MTree :=
  w.map (fun e => (e.1, e.2.filter (fun x => x ≠ c)))

/-- Insertion into a children sequence: at the front when `atBack`, at
the topmost (rightmost) end otherwise. -/
def insertChild (atBack : Bool) (c : ℕ) (l : List ℕ) : List ℕ :=
  if atBack then c :: l else l ++ [c]

/-- Attaching a child to the (first) entry of the parent; a no-op when
the parent is unknown. -/
def attachChild (p c : ℕ) (atBack : Bool) : MTree → MTree
  | [] => []
  | e :: rest =>
      if e.1 = p then (e.1, insertChild atBack c e.2) :: rest
      else e :: attachChild p c atBack rest

/-- The ancestor chain of `n`, climbing the parent back-references for at
most `fuel` steps (the executable form of the spec's "ancestor" walk). -/
def climb (w : MTree) : ℕ → ℕ → List ℕ
  | 0, _ => []
  | fuel + 1, n =>
      match parentOf w n with
      | none => []
      | some q => q :: climb w fuel q

/-- Modelled from the spec: the explicit pre-attachment cycle check of
`addChild` - is `c` the node `p` itself or an ancestor of `p`?  The
climb fuel `w.length + 1` exceeds the number of distinct candidate
parents, so on invariant-satisfying states the bounded climb is
exhaustive (proved below). -/
def isAncestorCheck (w : MTree) (c p : ℕ) : Bool :=
  c == p || (climb w (w.length + 1) p).contains c

/-- Modelled from the spec (4.1): `addChild(parent, child, atBack)` -
fail silently on the cycle check, otherwise detach the child from any
existing parent and attach it to the parent's sequence. -/
def addChild (p c : ℕ) (atBack : Bool) (w : MTree) : MTree :=
  if isAncestorCheck w c p then w
  else attachChild p c atBack (detachChild c w)

/-- Modelled from the spec (4.1): `remove(node)` detaches the node from
its parent's child sequence. -/
def removeNode (n : ℕ) (w : MTree) : MTree := detachChild n w

/-- One tree operation of the claimed sequences. -/
inductive TreeOp where
  | add (p c : ℕ) (atBack : Bool)
  | rem (n : ℕ)
deriving DecidableEq, Repr

/-- Applying a sequence of `addChild`/`remove` operations in order. -/
def applyOps : List TreeOp → MTree → MTree
  | [], w => w
  | .add p c atBack :: rest, w => applyOps rest (addChild p c atBack w)
  | .rem n :: rest, w => applyOps rest (removeNode n w)

/-- Total number of occurrences of `x` across all child sequences. -/
def childOcc (x : ℕ) : MTree → ℕ
  | [] => 0
  | e :: rest => e.2.count x + childOcc x rest

/-- Invariant part 1: every node appears in at most one parent's child
sequence, and at most once there. -/
def UniqueChild (w : MTree) : Prop := ∀ x, childOcc x w ≤ 1

/-- The parent-to-child edge relation of a tree state. -/
def hasEdge (w : MTree) (a b : ℕ) : Prop := b ∈ childrenOf w a

/-- Nonempty chains of a relation (a path of one or more edges). -/
inductive Reaches (E : ℕ → ℕ → Prop) : ℕ → ℕ → Prop where
  | base {a b} : E a b → Reaches E a b
  | step {a x b} : E a x → Reaches E x b → Reaches E a b

/-- Invariant part 2: the tree is acyclic - no node reaches itself along
child edges. -/
def Acyclic (w : MTree) : Prop := ∀ n, ¬ Reaches (hasEdge w) n n

/-- Wellformedness of the state representation: one entry per node. -/
def KeysNodup (w : MTree) : Prop := (w.map Prod.fst).Nodup

/-- The full tree invariant of the claim. -/
def MInv (w : MTree) : Prop := KeysNodup w ∧ UniqueChild w ∧ Acyclic w


/-!
## Helper lemmas

First the lemma chain for the morph-tree invariant (claim C5): bookkeeping
for keys, child sequences and occurrence counts under detach/attach; the
parent lookup as the inverse of the edge relation under the invariant; the
bounded ancestor climb, its soundness and (on invariant states) its
exhaustiveness; and the acyclicity argument for the guarded attachment.
-/

theorem keys_detach (c : ℕ) (w : MTree) :
    (detachChild c w).map Prod.fst = w.map Prod.fst := by
  induction w with
  | nil => rfl
  | cons e rest ih => simp only [detachChild, List.map_cons] at *; rw [ih]

theorem keys_attach (p c : ℕ) (ab : Bool) (w : MTree) :
    (attachChild p c ab w).map Prod.fst = w.map Prod.fst := by
  induction w with
  | nil => rfl
  | cons e rest ih =>
      by_cases he : e.1 = p <;> simp [attachChild, he, ih]

theorem childrenOf_detach (c : ℕ) (w : MTree) (a : ℕ) :
    childrenOf (detachChild c w) a = (childrenOf w a).filter (fun x => x ≠ c) := by
  induction w with
  | nil => simp [childrenOf, detachChild]
  | cons e rest ih =>
      by_cases he : e.1 = a
      · simp [childrenOf, detachChild, List.find?, he]
      · simpa [childrenOf, detachChild, List.find?, he] using ih

theorem attach_absent (p c : ℕ) (ab : Bool) (w : MTree)
    (h : p ∉ w.map Prod.fst) : attachChild p c ab w = w := by
  induction w with
  | nil => rfl
  | cons e rest ih =>
      simp only [List.map_cons, List.mem_cons] at h
      push_neg at h
      have hne : ¬ e.1 = p := fun hc => h.1 hc.symm
      simp [attachChild, hne, ih h.2]

theorem childrenOf_attach_self (p c : ℕ) (ab : Bool) (w : MTree)
    (h : p ∈ w.map Prod.fst) :
    childrenOf (attachChild p c ab w) p = insertChild ab c (childrenOf w p) := by
  induction w with
  | nil => simp at h
  | cons e rest ih =>
      by_cases hk : e.1 = p
      · simp [attachChild, childrenOf, List.find?, hk]
      · simp only [List.map_cons, List.mem_cons] at h
        rcases h with h | h
        · exact absurd h.symm hk
        · simpa [attachChild, childrenOf, List.find?, hk] using ih h

theorem count_insertChild (x c : ℕ) (ab : Bool) (l : List ℕ) :
    (insertChild ab c l).count x = l.count x + (if x = c then 1 else 0) := by
  by_cases hx : x = c <;>
    cases ab <;> simp [insertChild, List.count_cons, List.count_append, hx]

theorem count_filter_ne (x c : ℕ) (l : List ℕ) :
    (l.filter (fun y => y ≠ c)).count x = if x = c then 0 else l.count x := by
  by_cases hx : x = c
  · subst hx
    rw [if_pos rfl, List.count_eq_zero]
    intro hmem
    have hp := List.of_mem_filter hmem
    simp at hp
  · rw [if_neg hx]
    apply List.count_filter
    simp [hx]

theorem childOcc_detach (x c : ℕ) (w : MTree) :
    childOcc x (detachChild c w) = if x = c then 0 else childOcc x w := by
  induction w with
  | nil => simp [childOcc, detachChild]
  | cons e rest ih =>
      simp only [detachChild, List.map_cons, childOcc] at *
      rw [ih, count_filter_ne]
      by_cases hx : x = c <;> simp [hx]

theorem childOcc_attach_le (x p c : ℕ) (ab : Bool) (w : MTree) :
    childOcc x (attachChild p c ab w) ≤ childOcc x w + (if x = c then 1 else 0) := by
  induction w with
  | nil => simp [attachChild, childOcc]
  | cons e rest ih =>
      by_cases hk : e.1 = p
      · simp only [attachChild, if_pos hk, childOcc]
        rw [count_insertChild]
        omega
      · simp only [attachChild, if_neg hk, childOcc]
        omega


theorem childrenOf_attach_other (p c : ℕ) (ab : Bool) (w : MTree) (a : ℕ)
    (h : a ≠ p) :
    childrenOf (attachChild p c ab w) a = childrenOf w a := by
  induction w with
  | nil => rfl
  | cons e rest ih =>
      by_cases hk : e.1 = p
      · have hka : ¬ e.1 = a := fun hc => h (hc.symm.trans hk)
        simp [attachChild, childrenOf, List.find?, hk, hka, Ne.symm h]
      · by_cases hka : e.1 = a
        · simp [attachChild, childrenOf, List.find?, hk, hka, h]
        · simpa [attachChild, childrenOf, List.find?, hk, hka] using ih


theorem exists_entry_of_hasEdge (w : MTree) (a b : ℕ) (h : hasEdge w a b) :
    ∃ e ∈ w, e.1 = a ∧ b ∈ e.2 := by
  unfold hasEdge childrenOf at h
  cases hf : w.find? (fun e => decide (e.1 = a)) with
  | none => rw [hf] at h; simp at h
  | some e =>
      rw [hf] at h
      refine ⟨e, List.mem_of_find?_eq_some hf, ?_, h⟩
      have hp := List.find?_some hf
      simpa using hp

theorem childOcc_pos_of_mem (w : MTree) (e : ℕ × List ℕ) (b : ℕ)
    (hmem : e ∈ w) (hb : b ∈ e.2) : 1 ≤ childOcc b w := by
  induction w with
  | nil => simp at hmem
  | cons f rest ih =>
      rcases List.mem_cons.mp hmem with rfl | hmem2
      · have hc : e.2.count b ≠ 0 := by
          rw [Ne, List.count_eq_zero]; exact fun hk => hk hb
        simp only [childOcc]; omega
      · have := ih hmem2
        simp only [childOcc]; omega

theorem childOcc_pos_of_hasEdge (w : MTree) (a b : ℕ) (h : hasEdge w a b) :
    1 ≤ childOcc b w := by
  obtain ⟨e, hmem, -, hb⟩ := exists_entry_of_hasEdge w a b h
  exact childOcc_pos_of_mem w e b hmem hb

theorem childrenOf_entry (w : MTree) (e : ℕ × List ℕ)
    (hn : KeysNodup w) (hmem : e ∈ w) : childrenOf w e.1 = e.2 := by
  induction w with
  | nil => simp at hmem
  | cons f rest ih =>
      have hn2 : KeysNodup rest := by
        unfold KeysNodup at hn ⊢
        simp only [List.map_cons, List.nodup_cons] at hn
        exact hn.2
      rcases List.mem_cons.mp hmem with rfl | hmem2
      · simp [childrenOf, List.find?]
      · have hfne : ¬ f.1 = e.1 := by
          intro hc
          have hk : e.1 ∈ rest.map Prod.fst := List.mem_map_of_mem Prod.fst hmem2
          unfold KeysNodup at hn
          simp only [List.map_cons, List.nodup_cons] at hn
          rw [← hc] at hk
          exact hn.1 hk
        simpa [childrenOf, List.find?, hfne] using ih hn2 hmem2

theorem parentOf_entries (w : MTree) (n q : ℕ) (h : parentOf w n = some q) :
    ∃ e ∈ w, e.1 = q ∧ n ∈ e.2 := by
  unfold parentOf at h
  cases hf : w.find? (fun e => decide (n ∈ e.2)) with
  | none => rw [hf] at h; simp at h
  | some e =>
      rw [hf] at h
      simp at h
      refine ⟨e, List.mem_of_find?_eq_some hf, h, ?_⟩
      have hp := List.find?_some hf
      simpa using hp

theorem hasEdge_of_parentOf (w : MTree) (n q : ℕ) (hn : KeysNodup w)
    (h : parentOf w n = some q) : hasEdge w q n := by
  obtain ⟨e, hmem, hq, hne⟩ := parentOf_entries w n q h
  subst hq
  unfold hasEdge
  rw [childrenOf_entry w e hn hmem]
  exact hne

theorem parentOf_of_hasEdge (w : MTree) (q n : ℕ) (hn : KeysNodup w)
    (hu : UniqueChild w) (h : hasEdge w q n) : parentOf w n = some q := by
  induction w with
  | nil =>
      exact absurd h (by simp [hasEdge, childrenOf])
  | cons f rest ih =>
      have hn2 : KeysNodup rest := by
        unfold KeysNodup at hn ⊢
        simp only [List.map_cons, List.nodup_cons] at hn
        exact hn.2
      have hu2 : UniqueChild rest := by
        intro x
        have := hu x
        simp only [childOcc] at this
        omega
      by_cases hfq : f.1 = q
      · have hnf : n ∈ f.2 := by
          unfold hasEdge childrenOf at h
          simpa [List.find?, hfq] using h
        unfold parentOf
        simp [List.find?, hnf, hfq]
      · have hrest : hasEdge rest q n := by
          unfold hasEdge childrenOf at h ⊢
          simpa [List.find?, hfq] using h
        have hnr : 1 ≤ childOcc n rest := by
          obtain ⟨e, hmem, -, hb⟩ := exists_entry_of_hasEdge rest q n hrest
          exact childOcc_pos_of_mem rest e n hmem hb
        have hnotf : n ∉ f.2 := by
          intro hin
          have hcnt : 1 ≤ f.2.count n := by
            have : f.2.count n ≠ 0 := by
              rw [Ne, List.count_eq_zero]; exact fun hk => hk hin
            omega
          have := hu n
          simp only [childOcc] at this
          omega
        have := ih hn2 hu2 hrest
        unfold parentOf at this ⊢
        simpa [List.find?, hnotf] using this

theorem reaches_mono {E F : ℕ → ℕ → Prop} (hEF : ∀ a b, E a b → F a b)
    {a b : ℕ} (h : Reaches E a b) : Reaches F a b := by
  induction h with
  | base he => exact .base (hEF _ _ he)
  | step he _ ih => exact .step (hEF _ _ he) ih

theorem reaches_trans {E : ℕ → ℕ → Prop} {a b d : ℕ}
    (h1 : Reaches E a b) (h2 : Reaches E b d) : Reaches E a d := by
  induction h1 with
  | base he => exact .step he h2
  | step he _ ih => exact .step he (ih h2)

theorem reaches_snoc {E : ℕ → ℕ → Prop} {a x b : ℕ}
    (h : Reaches E a x) (he : E x b) : Reaches E a b := by
  induction h with
  | base h0 => exact .step h0 (.base he)
  | step h0 _ ih => exact .step h0 (ih he)

theorem climb_reaches (w : MTree) (hn : KeysNodup w) :
    ∀ k n t, t ∈ climb w k n → Reaches (hasEdge w) t n := by
  intro k
  induction k with
  | zero => intro n t ht; simp [climb] at ht
  | succ k ih =>
      intro n t ht
      unfold climb at ht
      cases hq : parentOf w n with
      | none => rw [hq] at ht; simp at ht
      | some q =>
          rw [hq] at ht
          rcases List.mem_cons.mp ht with rfl | ht2
          · exact .base (hasEdge_of_parentOf w n t hn hq)
          · exact reaches_snoc (ih q t ht2) (hasEdge_of_parentOf w n q hn hq)

theorem climb_dup_cycle (w : MTree) (hn : KeysNodup w) :
    ∀ k n, ¬ (climb w k n).Nodup → ∃ m, Reaches (hasEdge w) m m := by
  intro k
  induction k with
  | zero => intro n h; simp [climb] at h
  | succ k ih =>
      intro n h
      unfold climb at h
      cases hq : parentOf w n with
      | none => rw [hq] at h; simp at h
      | some q =>
          rw [hq] at h
          rw [List.nodup_cons] at h
          by_cases hqin : q ∈ climb w k q
          · exact ⟨q, climb_reaches w hn k q q hqin⟩
          · have hnd : ¬ (climb w k q).Nodup := by tauto
            exact ih q hnd

theorem climb_subset_keys (w : MTree) :
    ∀ k n t, t ∈ climb w k n → t ∈ w.map Prod.fst := by
  intro k
  induction k with
  | zero => intro n t ht; simp [climb] at ht
  | succ k ih =>
      intro n t ht
      unfold climb at ht
      cases hq : parentOf w n with
      | none => rw [hq] at ht; simp at ht
      | some q =>
          rw [hq] at ht
          rcases List.mem_cons.mp ht with rfl | ht2
          · obtain ⟨e, hmem, hq1, -⟩ := parentOf_entries w n t hq
            rw [← hq1]
            exact List.mem_map_of_mem Prod.fst hmem
          · exact ih q t ht2

theorem climb_front_of_le (w : MTree) :
    ∀ k K n, k ≤ K → climb w k n <+: climb w K n := by
  intro k
  induction k with
  | zero => intro K n h; simp [climb]
  | succ k ih =>
      intro K n h
      obtain ⟨K2, rfl⟩ : ∃ K2, K = K2 + 1 := ⟨K - 1, by omega⟩
      unfold climb
      cases parentOf w n with
      | none => exact List.prefix_refl _
      | some q => exact (List.prefix_cons_inj q).mpr (ih K2 q (by omega))

theorem climb_stable_succ (w : MTree) :
    ∀ k n, (climb w k n).length < k → climb w (k + 1) n = climb w k n := by
  intro k
  induction k with
  | zero => intro n h; simp [climb] at h
  | succ k ih =>
      intro n h
      unfold climb at h ⊢
      cases hq : parentOf w n with
      | none => rfl
      | some q =>
          rw [hq] at h
          have hlen : (climb w k q).length < k := by simpa using h
          show q :: climb w (k + 1) q = q :: climb w k q
          rw [ih q hlen]

theorem climb_stable (w : MTree) (k n : ℕ) (h : (climb w k n).length < k) :
    ∀ K, k ≤ K → climb w K n = climb w k n := by
  intro K hK
  induction K with
  | zero =>
      have hz : k = 0 := by omega
      subst hz; rfl
  | succ K ih =>
      rcases Nat.lt_or_ge K k with hlt | hge
      · have hk1 : k = K + 1 := by omega
        subst hk1; rfl
      · have heq := ih hge
        have hlen : (climb w K n).length < K := by
          rw [heq]; omega
        rw [climb_stable_succ w K n hlen, heq]

theorem climb_mem_fixed (w : MTree) (hn : KeysNodup w) (hac : Acyclic w)
    (n t : ℕ) (K : ℕ) (ht : t ∈ climb w K n) :
    t ∈ climb w (w.length + 1) n := by
  rcases le_or_lt K (w.length + 1) with hK | hK
  · exact (climb_front_of_le w K (w.length + 1) n hK).subset ht
  · have hnodup : (climb w (w.length + 1) n).Nodup := by
      by_contra hd
      obtain ⟨m, hm⟩ := climb_dup_cycle w hn (w.length + 1) n hd
      exact hac m hm
    have hlen : (climb w (w.length + 1) n).length ≤ w.length := by
      have h1 : (climb w (w.length + 1) n).toFinset.card =
          (climb w (w.length + 1) n).length := List.toFinset_card_of_nodup hnodup
      have h2 : (climb w (w.length + 1) n).toFinset ⊆ (w.map Prod.fst).toFinset := by
        intro x hx
        rw [List.mem_toFinset] at *
        exact climb_subset_keys w (w.length + 1) n x (by simpa using hx)
      have h3 := Finset.card_le_card h2
      have h4 : (w.map Prod.fst).toFinset.card ≤ (w.map Prod.fst).length :=
        List.toFinset_card_le _
      rw [List.length_map] at h4
      omega
    rw [climb_stable w (w.length + 1) n (by omega) K (by omega)] at ht
    exact ht

theorem mem_climb_parent (w : MTree) :
    ∀ K n x q, x ∈ climb w K n → parentOf w x = some q →
      ∃ K2, q ∈ climb w K2 n := by
  intro K
  induction K with
  | zero => intro n x q hx hq; simp [climb] at hx
  | succ K ih =>
      intro n x q hx hq
      unfold climb at hx
      cases hp : parentOf w n with
      | none => rw [hp] at hx; simp at hx
      | some pb =>
          rw [hp] at hx
          rcases List.mem_cons.mp hx with rfl | hx2
          · refine ⟨2, ?_⟩
            unfold climb
            rw [hp]
            refine List.mem_cons_of_mem _ ?_
            unfold climb
            rw [hq]
            exact List.mem_cons_self _ _
          · obtain ⟨K2, hK2⟩ := ih pb x q hx2 hq
            refine ⟨K2 + 1, ?_⟩
            unfold climb
            rw [hp]
            exact List.mem_cons_of_mem _ hK2

theorem reaches_mem_climb (w : MTree) (hn : KeysNodup w) (hu : UniqueChild w)
    (c b : ℕ) (h : Reaches (hasEdge w) c b) : ∃ K, c ∈ climb w K b := by
  induction h with
  | base he =>
      refine ⟨1, ?_⟩
      unfold climb
      rw [parentOf_of_hasEdge w _ _ hn hu he]
      exact List.mem_cons_self _ _
  | step he _ ih =>
      obtain ⟨K, hK⟩ := ih
      exact mem_climb_parent w K _ _ _ hK (parentOf_of_hasEdge w _ _ hn hu he)

theorem reaches_implies_check (w : MTree) (hInv : MInv w) (c p : ℕ)
    (h : Reaches (hasEdge w) c p) : isAncestorCheck w c p = true := by
  obtain ⟨hn, hu, hac⟩ := hInv
  obtain ⟨K, hK⟩ := reaches_mem_climb w hn hu c p h
  have hfix := climb_mem_fixed w hn hac p c K hK
  unfold isAncestorCheck
  rw [Bool.or_eq_true]
  right
  simpa using hfix

theorem guard_false_spec (w : MTree) (hInv : MInv w) (c p : ℕ)
    (h : isAncestorCheck w c p = false) :
    c ≠ p ∧ ¬ Reaches (hasEdge w) c p := by
  constructor
  · intro hcp
    subst hcp
    unfold isAncestorCheck at h
    simp at h
  · intro hr
    rw [reaches_implies_check w hInv c p hr] at h
    cases h

theorem mem_insertChild (b c : ℕ) (ab : Bool) (l : List ℕ) :
    b ∈ insertChild ab c l ↔ b = c ∨ b ∈ l := by
  cases ab <;> simp [insertChild] <;> tauto

theorem hasEdge_new_iff (w : MTree) (p c : ℕ) (ab : Bool) (a b : ℕ) :
    hasEdge (attachChild p c ab (detachChild c w)) a b ↔
      (hasEdge w a b ∧ b ≠ c) ∨ (a = p ∧ b = c ∧ p ∈ w.map Prod.fst) := by
  by_cases hap : a = p
  · subst hap
    by_cases hmem : a ∈ w.map Prod.fst
    · simp only [hasEdge]
      rw [childrenOf_attach_self a c ab (detachChild c w)
            (by rw [keys_detach]; exact hmem),
          childrenOf_detach, mem_insertChild]
      constructor
      · intro hb
        rcases hb with rfl | hbf
        · exact Or.inr ⟨by trivial, by trivial, hmem⟩
        · have hf := List.mem_filter.mp hbf
          exact Or.inl ⟨hf.1, by simpa using hf.2⟩
      · intro h
        rcases h with ⟨he, hbc⟩ | ⟨-, rfl, -⟩
        · exact Or.inr (List.mem_filter.mpr ⟨he, by simpa using hbc⟩)
        · exact Or.inl rfl
    · rw [attach_absent a c ab (detachChild c w)
            (by rw [keys_detach]; exact hmem)]
      simp only [hasEdge]
      rw [childrenOf_detach]
      constructor
      · intro hb
        have hf := List.mem_filter.mp hb
        exact Or.inl ⟨hf.1, by simpa using hf.2⟩
      · intro h
        rcases h with ⟨he, hbc⟩ | ⟨-, -, hmem2⟩
        · exact List.mem_filter.mpr ⟨he, by simpa using hbc⟩
        · exact absurd hmem2 hmem
  · simp only [hasEdge]
    rw [childrenOf_attach_other p c ab _ a hap, childrenOf_detach]
    constructor
    · intro hb
      have hf := List.mem_filter.mp hb
      exact Or.inl ⟨hf.1, by simpa using hf.2⟩
    · intro h
      rcases h with ⟨he, hbc⟩ | ⟨hap2, -, -⟩
      · exact List.mem_filter.mpr ⟨he, by simpa using hbc⟩
      · exact absurd hap2 hap

theorem reaches_new_decomp (w : MTree) (p c : ℕ) (ab : Bool) (a b : ℕ)
    (h : Reaches (hasEdge (attachChild p c ab (detachChild c w))) a b) :
    Reaches (fun u v => hasEdge w u v ∧ v ≠ c) a b ∨
      ((a = p ∨ Reaches (hasEdge (attachChild p c ab (detachChild c w))) a p) ∧
       (b = c ∨ Reaches (fun u v => hasEdge w u v ∧ v ≠ c) c b)) := by
  induction h with
  | base he =>
      rcases (hasEdge_new_iff w p c ab _ _).mp he with hD | ⟨rfl, rfl, -⟩
      · exact Or.inl (.base hD)
      · exact Or.inr ⟨Or.inl rfl, Or.inl rfl⟩
  | step he hr ih =>
      rcases (hasEdge_new_iff w p c ab _ _).mp he with hD | ⟨rfl, rfl, -⟩
      · rcases ih with hDr | ⟨hx, hb⟩
        · exact Or.inl (.step hD hDr)
        · refine Or.inr ⟨?_, hb⟩
          right
          rcases hx with rfl | hxp
          · exact .base he
          · exact .step he hxp
      · rcases ih with hDr | ⟨hx, hb⟩
        · exact Or.inr ⟨Or.inl rfl, Or.inr hDr⟩
        · exact Or.inr ⟨Or.inl rfl, hb⟩

theorem acyclic_after_add (w : MTree) (p c : ℕ) (ab : Bool)
    (hac : Acyclic w) (hcp : c ≠ p) (hreach : ¬ Reaches (hasEdge w) c p) :
    Acyclic (attachChild p c ab (detachChild c w)) := by
  intro n hn
  have hDsub : ∀ u v, (hasEdge w u v ∧ v ≠ c) → hasEdge w u v :=
    fun u v hv => hv.1
  have hDsubE2 : ∀ u v, (hasEdge w u v ∧ v ≠ c) →
      hasEdge (attachChild p c ab (detachChild c w)) u v := by
    intro u v hv
    exact (hasEdge_new_iff w p c ab u v).mpr (Or.inl hv)
  have hCP : ¬ Reaches (hasEdge (attachChild p c ab (detachChild c w))) c p := by
    intro hE2
    rcases reaches_new_decomp w p c ab c p hE2 with hD | ⟨-, hb⟩
    · exact hreach (reaches_mono hDsub hD)
    · rcases hb with hpc | hD
      · exact hcp hpc.symm
      · exact hreach (reaches_mono hDsub hD)
  rcases reaches_new_decomp w p c ab n n hn with hD | ⟨h1, h2⟩
  · exact hac n (reaches_mono hDsub hD)
  · rcases h2 with rfl | hDcn
    · rcases h1 with rfl | hE2
      · exact hcp rfl
      · exact hCP hE2
    · have hE2cn := reaches_mono hDsubE2 hDcn
      rcases h1 with rfl | hE2np
      · exact hCP hE2cn
      · exact hCP (reaches_trans hE2cn hE2np)

theorem hasEdge_detach_sub (c : ℕ) (w : MTree) (a b : ℕ)
    (h : hasEdge (detachChild c w) a b) : hasEdge w a b := by
  unfold hasEdge at h ⊢
  rw [childrenOf_detach] at h
  exact (List.mem_filter.mp h).1

theorem uniqueChild_detach (c : ℕ) (w : MTree) (hu : UniqueChild w) :
    UniqueChild (detachChild c w) := by
  intro x
  rw [childOcc_detach]
  by_cases hx : x = c
  · simp [hx]
  · simp only [if_neg hx]
    exact hu x

theorem uniqueChild_add (w : MTree) (p c : ℕ) (ab : Bool)
    (hu : UniqueChild w) :
    UniqueChild (attachChild p c ab (detachChild c w)) := by
  intro x
  have h1 := childOcc_attach_le x p c ab (detachChild c w)
  rw [childOcc_detach] at h1
  by_cases hx : x = c
  · subst hx
    rw [if_pos rfl, if_pos rfl] at h1
    omega
  · simp only [if_neg hx] at h1
    have h2 := hu x
    omega

theorem minv_addChild (p c : ℕ) (ab : Bool) (w : MTree) (h : MInv w) :
    MInv (addChild p c ab w) := by
  unfold addChild
  by_cases hg : isAncestorCheck w c p = true
  · simp [hg]; exact h
  · have hgf : isAncestorCheck w c p = false := by
      rcases Bool.dichotomy (isAncestorCheck w c p) with h0 | h0
      · exact h0
      · exact absurd h0 hg
    obtain ⟨hcp, hreach⟩ := guard_false_spec w h c p hgf
    obtain ⟨hn, hu, hac⟩ := h
    rw [if_neg (by rw [hgf]; exact fun hc => by cases hc)]
    refine ⟨?_, uniqueChild_add w p c ab hu,
            acyclic_after_add w p c ab hac hcp hreach⟩
    unfold KeysNodup at hn ⊢
    rw [keys_attach, keys_detach]
    exact hn

theorem minv_removeNode (n : ℕ) (w : MTree) (h : MInv w) :
    MInv (removeNode n w) := by
  obtain ⟨hn, hu, hac⟩ := h
  refine ⟨?_, uniqueChild_detach n w hu, ?_⟩
  · unfold KeysNodup at hn ⊢
    unfold removeNode
    rw [keys_detach]
    exact hn
  · intro m hm
    exact hac m (reaches_mono (fun a b hab => hasEdge_detach_sub n w a b hab) hm)

theorem childOcc_zero (x : ℕ) (w : MTree)
    (hw : ∀ e ∈ w, e.2 = ([] : List ℕ)) : childOcc x w = 0 := by
  induction w with
  | nil => rfl
  | cons e rest ih =>
      simp only [childOcc]
      rw [hw e (List.mem_cons_self _ _)]
      simp [ih (fun f hf => hw f (List.mem_cons_of_mem _ hf))]

theorem no_edges_of_empty (w : MTree)
    (hw : ∀ e ∈ w, e.2 = ([] : List ℕ)) (a b : ℕ) : ¬ hasEdge w a b := by
  intro h
  obtain ⟨e, hmem, -, hb⟩ := exists_entry_of_hasEdge w a b h
  rw [hw e hmem] at hb
  simp at hb

theorem minv_of_empty_children (w : MTree) (hk : KeysNodup w)
    (hw : ∀ e ∈ w, e.2 = ([] : List ℕ)) : MInv w := by
  refine ⟨hk, fun x => ?_, fun n hn => ?_⟩
  · rw [childOcc_zero x w hw]
    omega
  · cases hn with
    | base he => exact no_edges_of_empty w hw _ _ he
    | step he _ => exact no_edges_of_empty w hw _ _ he

theorem tree_ops_preserve_invariants (ops : List TreeOp) (w : MTree)
    (h : MInv w) : MInv (applyOps ops w) := by
  induction ops generalizing w with
  | nil => exact h
  | cons op rest ih =>
      cases op with
      | add p c ab => exact ih _ (minv_addChild p c ab w h)
      | rem n => exact ih _ (minv_removeNode n w h)

/-!
## Helper lemmas for the easing and Point claims
-/

theorem elastic_none_iff (trig : TrigOracle) (t : ℚ) (h0 : 0 ≤ t) :
    easingElastic trig t = none ↔ t = 0 := by
  constructor
  · intro h
    by_contra hne
    have ht0 : 0 < t := lt_of_le_of_ne h0 (Ne.symm hne)
    have h100 : (100 * t : ℚ) ≠ 0 := by positivity
    rcases lt_or_ge t (1/2) with hlt | hge
    · rw [easingElastic, if_pos hlt] at h
      simp [pyDiv, h100] at h
    · rw [easingElastic, if_neg (not_lt.mpr hge)] at h
      simp [pyDiv, h100] at h
  · intro h
    subst h
    norm_num [easingElastic, pyDiv]

theorem elasticIn_none_iff (trig : TrigOracle) (t : ℚ) :
    easingElasticIn trig t = none ↔ t = 0 := by
  constructor
  · intro h
    by_contra hne
    have h25 : (25 * t : ℚ) ≠ 0 := by
      intro hz; exact hne (by linarith [hz])
    rw [easingElasticIn] at h
    simp [pyDiv, h25] at h
  · intro h
    subst h
    norm_num [easingElasticIn, pyDiv]

theorem elasticOut_none_iff (trig : TrigOracle) (t : ℚ) :
    easingElasticOut trig t = none ↔ t = 1 := by
  constructor
  · intro h
    by_contra hne
    have hz : (25 * (t - 1) : ℚ) ≠ 0 := by
      intro hz
      apply hne
      have ht : t - 1 = 0 := by linarith
      linarith
    rw [easingElasticOut] at h
    simp [pyDiv, hz] at h
  · intro h
    subst h
    norm_num [easingElasticOut, pyDiv]

theorem point_init_int (x y : ℚ) : (Point.init x y).isIntCoords := by
  constructor <;> simp [Point.init]

theorem point_opt_init {o1 o2 : Option ℚ} {r : Point}
    (h : (match o1, o2 with
          | some a, some b => some (Point.init a b)
          | _, _ => none) = some r) : r.isIntCoords := by
  rcases o1 with _ | a <;> rcases o2 with _ | b
  · simp at h
  · simp at h
  · simp at h
  · simp only [Option.some.injEq] at h
    rw [← h]
    exact point_init_int a b

/-!
## Claim theorems
-/

/-- C1 (code-bug exhibit): with linear easing, `duration = 1000` ms and
`delta = 10` from start value `0`, the very first `step()` call, 1 ms
after `start()`, already writes exactly `start + delta`, deactivates the
animation and fires the completion callback - although only 1 < 1000 ms
have elapsed.  The claimed behaviour (the value reaches `start+Δ` no
earlier than `D` ms, strictly monotonically approached before) fails
because `start()` sets `endTime` to the start instant without adding the
duration. -/
theorem animation_linear_completes_on_first_step :
    Animation.step easingLinear 1
      (Animation.start 0
        { delta := 10, duration := 1000, endTime := 0, destination := 0,
          isActive := false, value := 0, hasOnComplete := true,
          completions := 0 }) =
      some { delta := 10, duration := 1000, endTime := 0, destination := 10,
             isActive := false, value := 10, hasOnComplete := true,
             completions := 1 } ∧ (1 : ℤ) - 0 < 1000 := by
  constructor
  · norm_num [Animation.step, Animation.start]
  · norm_num

/-- C2 (code-bug exhibit): an active animation with `duration = 500`,
`delta = 4`, stepped 2 ms after start: the elapsed time 2 does not exceed
the duration 500, so by the claim `step()` should take the interpolation
branch and write `destination − delta·easing((end−now)/duration)` =
`4 − 4·(249/250) ≠ 4`; instead the code (whose `endTime` is the start
instant) takes the completion branch: exact destination, deactivation,
completion callback. -/
theorem animation_step_skips_interpolation_branch :
    Animation.step easingLinear 2
      (Animation.start 0
        { delta := 4, duration := 500, endTime := 0, destination := 0,
          isActive := false, value := 0, hasOnComplete := true,
          completions := 0 }) =
      some { delta := 4, duration := 500, endTime := 0, destination := 4,
             isActive := false, value := 4, hasOnComplete := true,
             completions := 1 } ∧
    (2 : ℤ) - 0 ≤ 500 ∧
    easingLinear ((0 + 500 - 2) / 500) = some (249 / 250) ∧
    (4 : ℚ) - 4 * (249 / 250) ≠ 4 := by
  refine ⟨?_, by norm_num, by norm_num [easingLinear], by norm_num⟩
  norm_num [Animation.step, Animation.start]

/-- C3 (code-bug exhibit): for an easing name not among the predefined
keys, and likewise when no easing is supplied, the fallback branch of
`Animation.__init__` evaluates `self.easings.sinusoidal` - attribute
access on a dict - and raises `AttributeError` instead of selecting the
sinusoidal easing; construction does not succeed. -/
theorem animation_easing_fallback_raises (trig : TrigOracle) :
    Animation.selectEasing trig (.byName ("bogus")) = none ∧
    Animation.selectEasing trig .noArg = none :=
  ⟨rfl, rfl⟩

/-- C4 counterexample: the predefined easings are not all total on
`[0,1]` - `elastic` and `elastic_in` divide by zero at `t = 0`, and
`elastic_out` divides by zero at `t = 1` (the trig oracle is irrelevant;
an arbitrary instantiation exhibits the failure). -/
theorem easing_elastic_raises_at_zero :
    easingElastic ⟨id, id, id⟩ 0 = none ∧
    easingElasticIn ⟨id, id, id⟩ 0 = none ∧
    easingElasticOut ⟨id, id, id⟩ 1 = none := by
  refine ⟨?_, ?_, ?_⟩ <;>
    norm_num [easingElastic, easingElasticIn, easingElasticOut, pyDiv]

/-- C4 (amended): of the twelve predefined easings, the nine non-elastic
ones (linear, sinusoidal, quadratic, cubic, sine_in, quad_in, cubic_in,
sine_out, quad_out) are total on `[0,1]`; the elastic variants raise
`ZeroDivisionError` exactly at one endpoint - `elastic` and `elastic_in`
at `t = 0`, `elastic_out` at `t = 1` - and are defined everywhere else
on `[0,1]`. -/
theorem easings_totality_amended (trig : TrigOracle) (t : ℚ)
    (h0 : 0 ≤ t) (h1 : t ≤ 1) :
    (easingLinear t).isSome = true ∧
    (easingSinusoidal trig t).isSome = true ∧
    (easingQuadratic t).isSome = true ∧
    (easingCubic t).isSome = true ∧
    (easingSineIn trig t).isSome = true ∧
    (easingQuadIn t).isSome = true ∧
    (easingCubicIn t).isSome = true ∧
    (easingSineOut trig t).isSome = true ∧
    (easingQuadOut t).isSome = true ∧
    (easingElastic trig t = none ↔ t = 0) ∧
    (easingElasticIn trig t = none ↔ t = 0) ∧
    (easingElasticOut trig t = none ↔ t = 1) :=
  ⟨rfl, rfl, rfl, rfl, rfl, rfl, rfl, rfl, rfl,
   elastic_none_iff trig t h0, elasticIn_none_iff trig t,
   elasticOut_none_iff trig t⟩

/-- Witness for C4's amended theorem at `t = 1/2` (an interior point where
all twelve easings succeed). -/
theorem easings_totality_amended_witness :
    (easingLinear (1/2)).isSome = true ∧
    (easingSinusoidal ⟨id, id, id⟩ (1/2)).isSome = true ∧
    (easingQuadratic (1/2)).isSome = true ∧
    (easingCubic (1/2)).isSome = true ∧
    (easingSineIn ⟨id, id, id⟩ (1/2)).isSome = true ∧
    (easingQuadIn (1/2)).isSome = true ∧
    (easingCubicIn (1/2)).isSome = true ∧
    (easingSineOut ⟨id, id, id⟩ (1/2)).isSome = true ∧
    (easingQuadOut (1/2)).isSome = true ∧
    (easingElastic ⟨id, id, id⟩ (1/2) = none ↔ (1/2 : ℚ) = 0) ∧
    (easingElasticIn ⟨id, id, id⟩ (1/2) = none ↔ (1/2 : ℚ) = 0) ∧
    (easingElasticOut ⟨id, id, id⟩ (1/2) = none ↔ (1/2 : ℚ) = 1) :=
  easings_totality_amended ⟨id, id, id⟩ (1/2) (by norm_num) (by norm_num)

/-- C5: every sequence of `addChild`/`remove` operations applied to a
state satisfying the tree invariant (one entry per node, each node in at
most one parent's child sequence, acyclic) yields a state satisfying the
invariant. -/
theorem tree_ops_preserve_invariants_main (ops : List TreeOp) (w : MTree)
    (h : MInv w) : MInv (applyOps ops w) :=
  tree_ops_preserve_invariants ops w h

/-- C6: whenever `Animation.__init__` returns (i.e. easing resolution did
not raise), the animation has been started: its active flag is set and
its destination is the value read through the getter at construction time
plus the delta. -/
theorem animation_init_starts_immediately (trig : TrigOracle)
    (easing : EasingArg) (delta duration : ℚ) (hasOC : Bool) (value : ℚ)
    (now : ℤ) (f : ℚ → Option ℚ) (a : Animation)
    (h : Animation.init trig easing delta duration hasOC value now =
      some (f, a)) :
    a.isActive = true ∧ a.destination = value + delta := by
  unfold Animation.init at h
  cases hsel : Animation.selectEasing trig easing with
  | none => rw [hsel] at h; cases h
  | some g =>
      rw [hsel] at h
      simp only [Option.some.injEq, Prod.mk.injEq] at h
      obtain ⟨-, ha⟩ := h
      subst ha
      simp [Animation.start]

/-- Witness for C6: constructing with the linear easing at concrete
arguments. -/
theorem animation_init_starts_immediately_witness :
    (Animation.start 3
      { delta := 5, duration := 200, endTime := 0, destination := 0,
        isActive := false, value := 7, hasOnComplete := false,
        completions := 0 }).isActive = true ∧
    (Animation.start 3
      { delta := 5, duration := 200, endTime := 0, destination := 0,
        isActive := false, value := 7, hasOnComplete := false,
        completions := 0 }).destination = 7 + 5 :=
  animation_init_starts_immediately ⟨id, id, id⟩ (.byName ("linear"))
    5 200 false 7 3 easingLinear _ rfl

/-- C7 (code-bug exhibit): the standard profile evaluates to a record
with `minimumFontHeight = 1`, `grabThreshold = 5`,
`mouseScrollAmount = 40` and `isTouchDevice = false`, and
`MorphicPreferences` is the standard record aliased wholesale - but the
touch-screen profile does NOT evaluate: its first entry reads
`standardSettings.minimumFontHeight` as a dict attribute, which raises
`AttributeError`, so the claim that both profiles successfully evaluate
fails. -/
theorem touch_settings_evaluation_raises :
    evalSettings touchScreenSettingsSrc = none ∧
    (evalSettings standardSettingsSrc).map
        (fun l => l.lookup ("minimumFontHeight")) = some (some (.num 1)) ∧
    (evalSettings standardSettingsSrc).map
        (fun l => l.lookup ("grabThreshold")) = some (some (.num 5)) ∧
    (evalSettings standardSettingsSrc).map
        (fun l => l.lookup ("mouseScrollAmount")) = some (some (.num 40)) ∧
    (evalSettings standardSettingsSrc).map
        (fun l => l.lookup ("isTouchDevice")) = some (some (.bool false)) ∧
    touchScreenSettingsSrc.lookup ("isTouchDevice") =
      some (.lit (.bool true)) ∧
    MorphicPreferences = standardSettingsSrc :=
  ⟨rfl, rfl, rfl, rfl, rfl, rfl, rfl⟩

/-- C8: executing the module's top-level statements in source order fails
with `NameError` at `ZERO = Point()` - the name `Point` (like `Color` for
`BLACK`/`WHITE`/`CLEAR` and `getMinimumFontHeight` for
`standardSettings`) is only bound much later (statement indices 34, 33
and 29 versus 7-11) - so no class or settings record ever becomes usable;
additionally `touchScreenSettings` reads `minimumFontHeight` as an
attribute of the dict `standardSettings`, which would raise
`AttributeError` even in isolation. -/
theorem module_toplevel_fails_unbound_names :
    runTopLevel [] moduleTopLevel = .error ((("ZERO")), (("Point"))) ∧
    bindIndex ("ZERO") = some 7 ∧
    bindIndex ("BLACK") = some 8 ∧
    bindIndex ("WHITE") = some 9 ∧
    bindIndex ("CLEAR") = some 10 ∧
    bindIndex ("standardSettings") = some 11 ∧
    bindIndex ("getMinimumFontHeight") = some 29 ∧
    bindIndex ("Color") = some 33 ∧
    bindIndex ("Point") = some 34 ∧
    touchScreenSettingsSrc.lookup ("minimumFontHeight") =
      some (.dictAttr ("standardSettings") ("minimumFontHeight")) ∧
    evalSettingExpr (.dictAttr ("standardSettings") ("minimumFontHeight")) =
      none :=
  ⟨rfl, rfl, rfl, rfl, rfl, rfl, rfl, rfl, rfl, rfl, rfl⟩

/-- C9: whenever the red channel is the strict maximum (`g < r` and
`b < r`), `Color.rgba_hsva` raises its "This error should never be
raised" exception, because the hue branch tests `max == rr` - the builtin
function `max`, not the computed `max_` - which is false for every
number. -/
theorem rgba_hsva_raises_on_red_max (r g b a : ℚ) (hg : g < r)
    (hb : b < r) : Color.rgba_hsva r g b a = none := by
  have hgg : g / 255 < r / 255 := by linarith
  have hbb : b / 255 < r / 255 := by linarith
  have hmax : max (r/255) (max (g/255) (b/255)) = r/255 :=
    max_eq_left (max_le hgg.le hbb.le)
  have hminle : min (r/255) (min (g/255) (b/255)) ≤ g/255 :=
    le_trans (min_le_right _ _) (min_le_left _ _)
  simp only [Color.rgba_hsva, pyMaxFnEqNum, Bool.false_eq_true, if_false]
  rw [hmax]
  rw [if_neg, if_neg, if_neg]
  · intro h; rw [h] at hbb; exact absurd hbb (lt_irrefl _)
  · intro h; rw [h] at hgg; exact absurd hgg (lt_irrefl _)
  · intro h; rw [← h] at hminle; linarith

/-- Witness for C9 at pure red. -/
theorem rgba_hsva_raises_on_red_max_witness :
    Color.rgba_hsva 255 0 0 1 = none :=
  rgba_hsva_raises_on_red_max 255 0 0 1 (by norm_num) (by norm_num)

/-- C10: every Point reachable through the class API has integer
coordinates - the constructor truncates with `int(float(.))` and every
Point-producing method funnels its numbers back through the
constructor. -/
theorem reachable_points_integer_coords (p : Point)
    (h : Point.Reachable p) : p.isIntCoords := by
  induction h with
  | init x y => exact point_init_int x y
  | copy _ _ => exact point_init_int _ _
  | neg _ _ => exact point_init_int _ _
  | absP _ _ => exact point_init_int _ _
  | roundP _ _ => exact point_init_int _ _
  | floorP _ _ => exact point_init_int _ _
  | ceilP _ _ => exact point_init_int _ _
  | maxP _ _ _ _ => exact point_init_int _ _
  | minP _ _ _ _ => exact point_init_int _ _
  | addP _ _ _ _ => exact point_init_int _ _
  | addS s _ _ => exact point_init_int _ _
  | subP _ _ _ _ => exact point_init_int _ _
  | subS s _ _ => exact point_init_int _ _
  | rsubS s _ _ => exact point_init_int _ _
  | mulP _ _ _ _ => exact point_init_int _ _
  | mulS s _ _ => exact point_init_int _ _
  | divP _ _ hsome _ _ => exact point_opt_init hsome
  | divS s _ hsome _ => exact point_opt_init hsome
  | floordivP _ _ hsome _ _ => exact point_opt_init hsome
  | modP _ _ hsome _ _ => exact point_opt_init hsome
  | mirror _ hsome _ => exact absurd hsome (by simp [Point.mirror])

/-- Witness for C10 at a concrete constructor call with fractional
arguments. -/
theorem reachable_points_integer_coords_witness :
    (Point.init (7/2) (-9/4)).isIntCoords :=
  reachable_points_integer_coords _ (Point.Reachable.init (7/2) (-9/4))

/-- Witness for C5: four operations (including an attachment that the
cycle guard must reject) on a three-node forest with no edges. -/
theorem tree_ops_preserve_invariants_main_witness :
    MInv (applyOps
      [TreeOp.add 0 1 false, TreeOp.add 1 2 false,
       TreeOp.rem 2, TreeOp.add 2 0 true]
      [(0, []), (1, []), (2, [])]) :=
  tree_ops_preserve_invariants_main _ _
    (minv_of_empty_children _ (by unfold KeysNodup; decide) (by decide))
